import Mathlib

/-
  Verification of the Maskeraid sanitization engine (src/shared/sanitizer.ts).

  Texts are modelled as lists of characters (`Str`).  The JavaScript regular
  expression engine is abstract: a compiled regex is a `Matcher`, a function
  from a text and a scan position to an optional `(start, length)` pair, which
  is exactly the information `RegExp.exec` with the `g` flag consumes and
  produces (`lastIndex` in, `match.index` and `match[0].length` out).  An
  `Engine` maps a pattern source and a flag string to either a compile error
  message or a `Matcher`, mirroring `new RegExp(pattern, flags)` inside
  `try`/`catch`.

  Loops of the source (`exec` scans, `indexOf` scans, `replace` with a global
  escaped-literal regex) are embedded as fuel-based structural recursions so
  that every definition evaluates by kernel reduction; a `none` result of a
  fueled loop models non-termination of the original loop (which the source
  can only exhibit for an empty pattern, excluded by the data-model
  invariant).  Fuel `length + 1` or `length + 2` always suffices on the
  terminating paths, which is proved, not assumed.

  Two further JavaScript behaviours are modelled exactly: `replace` performs
  GetSubstitution on the replacement string (`$$`, `$&` and the before/after
  substitutions; `$n` and named-group forms stay literal because the escaped
  value regex has no capture groups), and the plain-object assignment
  `replacementMap[value] = token` creates no own property when `value` is
  the string `__proto__` (the inherited accessor setter swallows it), so the
  returned map lacks that entry while the index counter still advances.
-/

namespace Maskeraid

/-- Texts and strings of the program, as lists of characters. -/
abbrev Str := List Char

/-- Coerce a Lean string literal to the model's string type. -/
def strOf (s : String) : Str := s.data

/-- `text.toLowerCase()`, character-wise.  `Char.toLower` folds exactly the
ASCII letters, on which it agrees with the JavaScript Unicode lowering;
theorems about case-insensitive matching therefore carry explicit ASCII
hypotheses on the text and pattern. -/
def lowerStr (t : Str) : Str := t.map Char.toLower

/-- `pat` occurs in `t` starting at index `i`. -/
def matchesAt (t pat : Str) (i : Nat) : Bool := pat.isPrefixOf (t.drop i)

/-- Fueled scan for the least `j ≥ i` with `matchesAt t pat j`; `none` when
there is no occurrence at or after `i` (or the fuel is short, which never
happens for fuel `t.length + 1`). -/
def findFromAux (t pat : Str) : Nat → Nat → Option Nat
  | 0, _ => none
  | k + 1, i =>
    if t.length < i then none
    else if matchesAt t pat i then some i
    else findFromAux t pat k (i + 1)

/-- `text.indexOf(pattern, start)` of JavaScript (with the start position
clamped to the text length), returning `none` for `-1`. -/
def indexOfFrom (t pat : Str) (start : Nat) : Option Nat :=
  findFromAux t pat (t.length + 1) (min start t.length)

/-- Fueled left-to-right non-overlapping replacement of the literal `pat`
by the text `rep` inserted verbatim; an empty `pat` inserts `rep` at every
position.  This is the `$`-free special case of the program's `replace`
(see `replaceAllSubst_no_dollar`) and the natural reading of the spec's
claim-level inverse substitution. -/
def replaceAllLitAux (pat rep : Str) : Nat → Str → Str
  | 0, t => t
  | _ + 1, [] => if pat.isEmpty then rep else []
  | k + 1, c :: rest =>
    if pat ≠ [] ∧ pat.isPrefixOf (c :: rest) = true then
      rep ++ replaceAllLitAux pat rep k ((c :: rest).drop pat.length)
    else if pat.isEmpty then
      rep ++ c :: replaceAllLitAux pat rep k rest
    else
      c :: replaceAllLitAux pat rep k rest

/-- Global literal replacement with `rep` inserted verbatim: equal to the
program's `text.replace(new RegExp(escapeRegExp(pat), "g"), rep)` exactly
when `rep` contains no `$` (proved in `replaceAllSubst_no_dollar`), and the
operation the round-trip claim's inverse lookup performs. -/
def replaceAllLit (pat rep t : Str) : Str := replaceAllLitAux pat rep (t.length + 1) t

/-- Case-insensitive occurrence test (character-wise lowering). -/
def ciPrefix (pat t : Str) : Bool := (lowerStr pat).isPrefixOf (lowerStr t)

/-- `match[0]` of a match at `i` of length `len`: `text.substring(i, i+len)`. -/
def substrAt (t : Str) (i len : Nat) : Str := (t.drop i).take len

/-- The backquote character, `$` followed by which selects the text before
the match in a replacement string. -/
def backquoteChar : Char := Char.ofNat 96

/-- The single-quote character, `$` followed by which selects the text after
the match in a replacement string. -/
def quoteChar : Char := Char.ofNat 39

/-- ECMAScript GetSubstitution for a replacement template against a match
with zero capture groups: `$$` yields `$`, `$&` the matched text, a
backquote selects the text before the match, and a single quote the text
after the match; every other `$`-sequence (digits, `$<`) stays literal because the
escaped value regex defines no capture groups. -/
def expandSubst (matched before after : Str) : Str → Str
  | [] => []
  | [c] => if c = '$' then ['$'] else [c]
  | c :: d :: rest =>
    if c = '$' then
      if d = '$' then '$' :: expandSubst matched before after rest
      else if d = '&' then matched ++ expandSubst matched before after rest
      else if d = backquoteChar then before ++ expandSubst matched before after rest
      else if d = quoteChar then after ++ expandSubst matched before after rest
      else '$' :: expandSubst matched before after (d :: rest)
    else c :: expandSubst matched before after (d :: rest)

/-- Fueled body of `orig.replace(new RegExp(escapeRegExp(pat), flags), rep)`
with `flags` either `g` (`ci = false`) or `gi` (`ci = true`): replace every
(case-insensitive iff `ci`) occurrence of the literal `pat`, left to right,
non-overlapping, substituting GetSubstitution of `rep` against the matched
text and its before/after context in `orig`.  An empty `pat` inserts the
expansion at every position, as the empty regex does. -/
def replaceAllSubstAux (ci : Bool) (pat rep orig : Str) : Nat → Nat → Str
  | 0, i => orig.drop i
  | k + 1, i =>
    match orig.drop i with
    | [] => if pat.isEmpty then expandSubst [] (orig.take i) [] rep else []
    | c :: rest =>
      if pat ≠ [] ∧ (if ci then ciPrefix pat (c :: rest) else pat.isPrefixOf (c :: rest)) = true then
        expandSubst (substrAt orig i pat.length) (orig.take i) (orig.drop (i + pat.length)) rep ++
          replaceAllSubstAux ci pat rep orig k (i + pat.length)
      else if pat.isEmpty then
        expandSubst [] (orig.take i) (c :: rest) rep ++
          c :: replaceAllSubstAux ci pat rep orig k (i + 1)
      else
        c :: replaceAllSubstAux ci pat rep orig k (i + 1)

/-- `t.replace(new RegExp(escapeRegExp(pat), "g"), rep)` with full
`$`-substitution in `rep`. -/
def replaceAllSubst (pat rep t : Str) : Str := replaceAllSubstAux false pat rep t (t.length + 1) 0

/-- `t.replace(new RegExp(escapeRegExp(pat), "gi"), rep)` with full
`$`-substitution in `rep`. -/
def replaceAllSubstCI (pat rep t : Str) : Str := replaceAllSubstAux true pat rep t (t.length + 1) 0

/-- `[...new Set(l)]` with an explicit `seen` accumulator: the distinct
elements of `l` not in `seen`, in first-seen order. -/
def firstDedupAux (seen : List Str) : List Str → List Str
  | [] => []
  | x :: xs =>
    if seen.contains x then firstDedupAux seen xs
    else x :: firstDedupAux (x :: seen) xs

/-- `[...new Set(l)]`: distinct elements in first-seen order. -/
def firstDedup (l : List Str) : List Str := firstDedupAux [] l

/-- Decimal digits of `n`, as the template literal interpolation renders it. -/
def natStr (n : Nat) : Str := Nat.toDigits 10 n

/-- The replacement token `replacement + "_" + i` built by `applyRule`. -/
def token (rep : Str) (i : Nat) : Str := rep ++ '_' :: natStr i

/-- The `distinctValues.forEach` map-building loop: the value at 1-based
index `i` is assigned `replacementMap[value] = token rep i`.  On a plain
JavaScript object the assignment for the key `__proto__` is swallowed by
the inherited accessor setter (the value is a string), so no entry is
created for it, while the index keeps advancing. -/
def indexedTokensAux (rep : Str) : Nat → List Str → List (Str × Str)
  | _, [] => []
  | i, v :: vs =>
    if v = strOf "__proto__" then indexedTokensAux rep (i + 1) vs
    else (v, token rep i) :: indexedTokensAux rep (i + 1) vs

/-- The replacement map built by `applyRule` over the distinct values, with
1-based first-seen indices and the `__proto__` key silently dropped. -/
def indexedTokens (rep : Str) (vals : List Str) : List (Str × Str) :=
  indexedTokensAux rep 1 vals

/-- A compiled global regex, abstractly: from a text and a scan position,
the next match's start index and length, or `none` when there is no match at
or after that position. -/
abbrev Matcher := Str → Nat → Option (Nat × Nat)

/-- `new RegExp(pattern, flags)` inside `try`/`catch`: either a compile error
message or a compiled matcher. -/
abbrev Engine := Str → Str → Except Str Matcher

/-- A matcher behaves like a real global regex: matches start at or after the
queried position and end within the text. -/
def MatcherWF (m : Matcher) : Prop :=
  ∀ t i s l, m t i = some (s, l) → i ≤ s ∧ s + l ≤ t.length

/-- Every matcher an engine compiles is well-formed. -/
def EngineWF (eng : Engine) : Prop :=
  ∀ p f m, eng p f = Except.ok m → MatcherWF m

/-- The `while ((match = regexForMatching.exec(text)) !== null)` collection
loop of `applyRule` and `testPattern`: collect `match[0]` of every match and
advance `lastIndex` by one extra position after a zero-length match. -/
def regexScanAux (m : Matcher) (t : Str) : Nat → Nat → Option (List Str)
  | 0, _ => none
  | fuel + 1, pos =>
    if t.length < pos then some []
    else
      match m t pos with
      | none => some []
      | some (s, l) =>
        let nextPos := if l = 0 then s + 1 else s + l
        (regexScanAux m t fuel nextPos).map (fun ms => substrAt t s l :: ms)

/-- The `while ((index = lowerText.indexOf(lowerPattern, index)) !== -1)`
loop of the literal branch: each hit records its index and the actual matched
text `text.substring(index, index + plen)`, then the cursor advances by
`plen`. -/
def litScanAux (t lowT lowP : Str) (plen : Nat) : Nat → Nat → Option (List (Nat × Str))
  | 0, _ => none
  | fuel + 1, idx =>
    match findFromAux lowT lowP (lowT.length + 1) (min idx lowT.length) with
    | none => some []
    | some i =>
      (litScanAux t lowT lowP plen fuel (i + plen)).map
        (fun ms => (i, substrAt t i plen) :: ms)

/-- Case-insensitive literal scan of `applyRule` and `testPattern`: lowercase
text and pattern, scan left to right, record actual-case matches. -/
def litScan (t pat : Str) : Option (List (Nat × Str)) :=
  litScanAux t (lowerStr t) (lowerStr pat) pat.length (t.length + 2) 0

/-- `SanitizationRule` (the fields the engine reads). -/
structure Rule where
  id : Str
  name : Str
  pattern : Str
  replacement : Str
  isRegex : Bool
  flags : Option Str
  enabled : Bool
deriving DecidableEq, Repr

/-- `rule.flags || "g"`: an absent or empty flag string defaults to `"g"`. -/
def flagsOrG (f : Option Str) : Str :=
  match f with
  | none => strOf "g"
  | some fl => if fl.isEmpty then strOf "g" else fl

/-- The value returned by `applyRule`. -/
structure ApplyRes where
  newText : Str
  «matches» : List Str
  replacementMap : List (Str × Str)
deriving DecidableEq, Repr

/-- The `distinctValues.forEach` replacement pass: replace each distinct
value by its indexed token (with `$`-substitution, the token being the raw
second argument of `replace`), case-insensitively iff `ci`. -/
def applyDistinct (ci : Bool) (rep : Str) (distinct : List Str) (t : Str) : Str :=
  distinct.enum.foldl
    (fun acc p =>
      if ci then replaceAllSubstCI p.2 (token rep (p.1 + 1)) acc
      else replaceAllSubst p.2 (token rep (p.1 + 1)) acc)
    t

/-- The regex branch of `applyRule`: compile with the rule's flags (default
`"g"`); on a compile error return the text unchanged with no matches; else
scan all matches, dedup, build the indexed map, and replace distinct values
(case-insensitively iff the flags contain `i`). -/
def applyRuleRegex (eng : Engine) (t : Str) (r : Rule) : Option ApplyRes :=
  let flags := flagsOrG r.flags
  match eng r.pattern flags with
  | Except.error _ => some ⟨t, [], []⟩
  | Except.ok m =>
    (regexScanAux m t (t.length + 2) 0).map (fun ms =>
      let distinct := firstDedup ms
      ⟨applyDistinct (flags.contains 'i') r.replacement distinct t, ms,
        indexedTokens r.replacement distinct⟩)

/-- The literal branch of `applyRule`: case-insensitive scan recording
actual-case matches, dedup preserving case, indexed map, and a case-sensitive
global replacement of each distinct value. -/
def applyRuleLit (t : Str) (r : Rule) : Option ApplyRes :=
  (litScan t r.pattern).map (fun pms =>
    let ms := pms.map Prod.snd
    let distinct := firstDedup ms
    ⟨applyDistinct false r.replacement distinct t, ms,
      indexedTokens r.replacement distinct⟩)

/-- `applyRule(text, rule)`. -/
def applyRule (eng : Engine) (t : Str) (r : Rule) : Option ApplyRes :=
  if r.isRegex then applyRuleRegex eng t r else applyRuleLit t r

/-- `AppliedRule`. -/
structure AppliedRule where
  rule : Rule
  matchCount : Nat
  «matches» : List Str
  replacementMap : List (Str × Str)
deriving DecidableEq, Repr

/-- `SanitizationResult`. -/
structure SanitizationResult where
  originalText : Str
  sanitizedText : Str
  appliedRules : List AppliedRule
  hasChanges : Bool
deriving DecidableEq, Repr

/-- The main loop of `sanitize` over the (already filtered) enabled rules:
apply each rule to the current text, record an `AppliedRule` and adopt the
new text only when the rule matched at least once. -/
def sanitizeAux (eng : Engine) : Str → List Rule → Option (Str × List AppliedRule)
  | text, [] => some (text, [])
  | text, r :: rs =>
    (applyRule eng text r).bind (fun res =>
      if res.«matches».isEmpty then sanitizeAux eng text rs
      else
        (sanitizeAux eng res.newText rs).map (fun q =>
          (q.1, ⟨r, res.«matches».length, res.«matches», res.replacementMap⟩ :: q.2)))

/-- `sanitize(text, rules)`: filter to enabled rules in order, run the loop,
and report whether the text changed. -/
def sanitize (eng : Engine) (text : Str) (rules : List Rule) : Option SanitizationResult :=
  (sanitizeAux eng text (rules.filter (fun r => r.enabled))).map (fun q =>
    ⟨text, q.1, q.2, q.1 != text⟩)

/-- The value returned by `testPattern`. -/
structure TestRes where
  «matches» : List Str
  count : Nat
deriving DecidableEq, Repr

/-- `testPattern(text, pattern, isRegex, flags)`: empty result for an empty
pattern or text or a failing regex; otherwise the same scan as `applyRule`
without replacement. -/
def testPattern (eng : Engine) (text pat : Str) (isReg : Bool) (flags : Option Str) :
    Option TestRes :=
  if pat.isEmpty || text.isEmpty then some ⟨[], 0⟩
  else if isReg then
    match eng pat (flagsOrG flags) with
    | Except.error _ => some ⟨[], 0⟩
    | Except.ok m =>
      (regexScanAux m text (text.length + 2) 0).map (fun ms => ⟨ms, ms.length⟩)
  else
    (litScan text pat).map (fun pms => ⟨pms.map Prod.snd, (pms.map Prod.snd).length⟩)

/-- The value returned by `validatePattern`. -/
structure ValidRes where
  valid : Bool
  error : Option Str
deriving DecidableEq, Repr

/-- `validatePattern(pattern, isRegex)`: non-empty check, then for regexes a
compile attempt with no flags whose error message is reported verbatim. -/
def validatePattern (eng : Engine) (pat : Str) (isReg : Bool) : ValidRes :=
  if pat.isEmpty then ⟨false, some (strOf "Pattern cannot be empty")⟩
  else if isReg then
    match eng pat [] with
    | Except.ok _ => ⟨true, none⟩
    | Except.error e => ⟨false, some e⟩
  else ⟨true, none⟩

/-- An engine on which every compilation fails; literal rules never consult
the engine, so it exercises the literal paths and the compile-error paths. -/
def noEngine : Engine := fun _ _ => Except.error (strOf "unsupported")

/-- Length of the leading run of `x` characters. -/
def xRun (t : Str) : Nat := (t.takeWhile (fun c => c == 'x')).length

/-- The compiled regex `/x*/g`: at every position `i ≤ length` it matches the
(possibly empty) maximal run of `x` starting there. -/
def xStarMatcher : Matcher := fun t i =>
  if i ≤ t.length then some (i, xRun (t.drop i)) else none

/-- Engine knowing exactly the pattern `x*`. -/
def xStarEngine : Engine := fun p _ =>
  if p = strOf "x*" then Except.ok xStarMatcher else Except.error (strOf "unsupported")

/-- `a`–`z` test for the character class `[a-z]`. -/
def isLowerAZ (c : Char) : Bool := 'a' ≤ c && c ≤ 'z'

/-- Length of the leading run of `[a-z]` characters. -/
def lowRun (t : Str) : Nat := (t.takeWhile isLowerAZ).length

/-- Length of the match of `[a-z]+@[a-z]+\.com` anchored at position `s`, if
any: a nonempty greedy letter run, `@`, a nonempty greedy letter run, then
the literal `.com` (greediness needs no backtracking here because `@` and `.`
are outside `[a-z]`). -/
def matchEmailAt (t : Str) (s : Nat) : Option Nat :=
  let rest := t.drop s
  let r1 := lowRun rest
  if r1 = 0 then none
  else
    match rest.drop r1 with
    | '@' :: rest2 =>
      let r2 := lowRun rest2
      if r2 = 0 then none
      else
        match rest2.drop r2 with
        | '.' :: 'c' :: 'o' :: 'm' :: _ => some (r1 + 1 + r2 + 4)
        | _ => none
    | _ => none

/-- Leftmost match search for the email regex from position `i`. -/
def emailSearchAux (t : Str) : Nat → Nat → Option (Nat × Nat)
  | 0, _ => none
  | k + 1, i =>
    if t.length < i then none
    else
      match matchEmailAt t i with
      | some len => some (i, len)
      | none => emailSearchAux t k (i + 1)

/-- The compiled regex `/[a-z]+@[a-z]+\.com/g`. -/
def emailMatcher : Matcher := fun t i => emailSearchAux t (t.length + 1) i

/-- The source text of the email pattern. -/
def emailPattern : Str := strOf "[a-z]+@[a-z]+\\.com"

/-- Engine knowing exactly the email pattern. -/
def emailEngine : Engine := fun p _ =>
  if p = emailPattern then Except.ok emailMatcher else Except.error (strOf "unsupported")

/-- Engine on which exactly the pattern `(unclosed` fails to compile,
modelling the JavaScript compiler rejecting an unbalanced group. -/
def unclosedEngine : Engine := fun p _ =>
  if p = strOf "(unclosed" then Except.error (strOf "Invalid regular expression")
  else Except.ok (fun _ _ => none)

/-- The inverse substitution of the round-trip claim: replace each token of
the replacement map by its original value, entry by entry. -/
def invSubst (map : List (Str × Str)) (s : Str) : Str :=
  map.foldl (fun acc p => replaceAllLit p.2 p.1 acc) s

theorem lowerStr_length (t : Str) : (lowerStr t).length = t.length :=
  List.length_map t Char.toLower

theorem lowerStr_ne_nil {t : Str} (h : t ≠ []) : lowerStr t ≠ [] := by
  simpa [lowerStr] using h

theorem matchesAt_bound {t pat : Str} {i : Nat} (hp : pat ≠ [])
    (h : matchesAt t pat i = true) : i + pat.length ≤ t.length := by
  have hpre : pat <+: t.drop i := by
    simpa [matchesAt, List.isPrefixOf_iff_prefix] using h
  have hlen := hpre.length_le
  have hpos : 0 < pat.length := List.length_pos.mpr hp
  simp only [List.length_drop] at hlen
  omega

theorem findFromAux_some {t pat : Str} :
    ∀ k i j, findFromAux t pat k i = some j →
      i ≤ j ∧ j ≤ t.length ∧ matchesAt t pat j = true ∧
        ∀ q, i ≤ q → q < j → matchesAt t pat q = false := by
  intro k
  induction k with
  | zero => intro i j h; simp [findFromAux] at h
  | succ k ih =>
    intro i j h
    simp only [findFromAux] at h
    by_cases hlt : t.length < i
    · simp [hlt] at h
    · simp only [if_neg hlt] at h
      by_cases hm : matchesAt t pat i = true
      · simp only [hm, if_true] at h
        obtain rfl : i = j := by simpa using h
        exact ⟨le_refl i, by omega, hm, fun q hq1 hq2 => by omega⟩
      · simp only [hm, if_false] at h
        obtain ⟨h1, h2, h3, h4⟩ := ih (i + 1) j h
        refine ⟨by omega, h2, h3, fun q hq1 hq2 => ?_⟩
        rcases Nat.eq_or_lt_of_le hq1 with hq | hq
        · subst hq; simpa using hm
        · exact h4 q hq hq2

theorem findFromAux_none {t pat : Str} :
    ∀ k i, t.length < i + k → findFromAux t pat k i = none →
      ∀ q, i ≤ q → q ≤ t.length → matchesAt t pat q = false := by
  intro k
  induction k with
  | zero => intro i hk _ q hq1 hq2; omega
  | succ k ih =>
    intro i hk h q hq1 hq2
    simp only [findFromAux] at h
    by_cases hlt : t.length < i
    · omega
    · simp only [if_neg hlt] at h
      by_cases hm : matchesAt t pat i = true
      · simp [hm] at h
      · simp only [hm, if_false] at h
        rcases Nat.eq_or_lt_of_le hq1 with hq | hq
        · subst hq; simpa using hm
        · exact ih (i + 1) (by omega) h q hq hq2

theorem matchesAt_at_length {lowT lowP : Str} {q : Nat} (hp : lowP ≠ [])
    (hq : lowT.length ≤ q) : matchesAt lowT lowP q = false := by
  by_contra h
  have h' : matchesAt lowT lowP q = true := by
    cases hb : matchesAt lowT lowP q
    · exact absurd hb h
    · rfl
  have := matchesAt_bound hp h'
  have hpos : 0 < lowP.length := List.length_pos.mpr hp
  omega

theorem litScanAux_isSome (t lowT : Str) {lowP : Str} {plen : Nat}
    (hp : lowP ≠ []) (hpl : plen = lowP.length) :
    ∀ fuel idx, lowT.length + 1 - idx < fuel →
      ∃ l, litScanAux t lowT lowP plen fuel idx = some l := by
  intro fuel
  induction fuel with
  | zero => intro idx h; omega
  | succ fuel ih =>
    intro idx h
    cases hfind : findFromAux lowT lowP (lowT.length + 1) (min idx lowT.length) with
    | none => exact ⟨[], by simp [litScanAux, hfind]⟩
    | some i =>
      obtain ⟨h1, h2, h3, _⟩ := findFromAux_some _ _ _ hfind
      have hbound := matchesAt_bound hp h3
      have hpos : 0 < lowP.length := List.length_pos.mpr hp
      have hidx : idx ≤ lowT.length := by
        by_contra hc
        have : min idx lowT.length = lowT.length := by omega
        omega
      have hmin : min idx lowT.length = idx := by omega
      obtain ⟨l', hl'⟩ := ih (i + plen) (by omega)
      exact ⟨(i, substrAt t i plen) :: l', by simp [litScanAux, hfind, hl']⟩

theorem litScanAux_mem {t lowT lowP : Str} {plen : Nat} :
    ∀ fuel idx l, litScanAux t lowT lowP plen fuel idx = some l →
      ∀ pm ∈ l, min idx lowT.length ≤ pm.1 ∧ matchesAt lowT lowP pm.1 = true ∧
        pm.2 = substrAt t pm.1 plen := by
  intro fuel
  induction fuel with
  | zero => intro idx l h; simp [litScanAux] at h
  | succ fuel ih =>
    intro idx l h
    simp only [litScanAux] at h
    cases hfind : findFromAux lowT lowP (lowT.length + 1) (min idx lowT.length) with
    | none => rw [hfind] at h; obtain rfl : ([] : List (Nat × Str)) = l := by simpa using h
              intro pm hpm; simp at hpm
    | some i =>
      rw [hfind] at h
      obtain ⟨l', hl', rfl⟩ := Option.map_eq_some'.mp h
      obtain ⟨h1, h2, h3, _⟩ := findFromAux_some _ _ _ hfind
      intro pm hpm
      rcases List.mem_cons.mp hpm with rfl | hpm'
      · exact ⟨h1, h3, rfl⟩
      · obtain ⟨g1, g2, g3⟩ := ih (i + plen) l' hl' pm hpm'
        refine ⟨?_, g2, g3⟩
        have := Nat.min_le_left (i + plen) lowT.length
        have := Nat.min_le_right (i + plen) lowT.length
        have hmin : min idx lowT.length ≤ min (i + plen) lowT.length := by
          rcases Nat.le_total (i + plen) lowT.length with hc | hc <;> omega
        omega

theorem litScanAux_nil_of_over {t lowT lowP : Str} {plen : Nat} {fuel idx : Nat} {l : List (Nat × Str)}
    (hp : lowP ≠ []) (hover : lowT.length ≤ idx)
    (h : litScanAux t lowT lowP plen fuel idx = some l) : l = [] := by
  cases fuel with
  | zero => simp [litScanAux] at h
  | succ fuel =>
    simp only [litScanAux] at h
    cases hfind : findFromAux lowT lowP (lowT.length + 1) (min idx lowT.length) with
    | none => rw [hfind] at h; simpa using h.symm
    | some i =>
      obtain ⟨h1, h2, h3, _⟩ := findFromAux_some _ _ _ hfind
      have hmin : min idx lowT.length = lowT.length := by omega
      rw [hmin] at h1
      have := matchesAt_at_length hp h1
      rw [this] at h3
      exact absurd h3 (by simp)

theorem litScanAux_chain {t lowT lowP : Str} {plen : Nat}
    (hp : lowP ≠ []) (hpl : plen = lowP.length) :
    ∀ fuel idx l, litScanAux t lowT lowP plen fuel idx = some l →
      List.Chain' (fun a b : Nat × Str => a.1 + plen ≤ b.1) l := by
  intro fuel
  induction fuel with
  | zero => intro idx l h; simp [litScanAux] at h
  | succ fuel ih =>
    intro idx l h
    simp only [litScanAux] at h
    cases hfind : findFromAux lowT lowP (lowT.length + 1) (min idx lowT.length) with
    | none => rw [hfind] at h; obtain rfl : ([] : List (Nat × Str)) = l := by simpa using h
              exact List.chain'_nil
    | some i =>
      rw [hfind] at h
      obtain ⟨l', hl', rfl⟩ := Option.map_eq_some'.mp h
      refine List.chain'_cons'.mpr ⟨?_, ih _ _ hl'⟩
      intro b hb
      have hbmem : b ∈ l' := by
        cases l' with
        | nil => simp at hb
        | cons x xs => simp at hb; subst hb; exact List.mem_cons_self _ _
      obtain ⟨g1, _, _⟩ := litScanAux_mem _ _ _ hl' b hbmem
      by_cases hc : i + plen ≤ lowT.length
      · have : min (i + plen) lowT.length = i + plen := by omega
        omega
      · have : l' = [] := litScanAux_nil_of_over hp (by omega) hl'
        subst this; simp at hbmem

theorem litScanAux_complete {t lowT lowP : Str} {plen : Nat}
    (hp : lowP ≠ []) (hpl : plen = lowP.length) :
    ∀ fuel idx l, litScanAux t lowT lowP plen fuel idx = some l →
      ∀ q, idx ≤ q → matchesAt lowT lowP q = true →
        ∃ pm ∈ l, pm.1 ≤ q ∧ q < pm.1 + plen := by
  intro fuel
  induction fuel with
  | zero => intro idx l h; simp [litScanAux] at h
  | succ fuel ih =>
    intro idx l h q hq hmq
    have hqb := matchesAt_bound hp hmq
    have hpos : 0 < lowP.length := List.length_pos.mpr hp
    simp only [litScanAux] at h
    cases hfind : findFromAux lowT lowP (lowT.length + 1) (min idx lowT.length) with
    | none =>
      exfalso
      have hnone := findFromAux_none (lowT.length + 1) (min idx lowT.length)
        (by omega) hfind q (by omega) (by omega)
      rw [hnone] at hmq; exact absurd hmq (by simp)
    | some i =>
      rw [hfind] at h
      obtain ⟨l', hl', rfl⟩ := Option.map_eq_some'.mp h
      obtain ⟨h1, h2, h3, h4⟩ := findFromAux_some _ _ _ hfind
      have hqi : i ≤ q := by
        by_contra hc
        have := h4 q (by omega) (by omega)
        rw [this] at hmq; exact absurd hmq (by simp)
      by_cases hcase : q < i + plen
      · exact ⟨(i, substrAt t i plen), List.mem_cons_self _ _, hqi, hcase⟩
      · obtain ⟨pm, hpm, g1, g2⟩ := ih _ _ hl' q (by omega) hmq
        exact ⟨pm, List.mem_cons_of_mem _ hpm, g1, g2⟩

theorem regexScanAux_isSome {m : Matcher} (hwf : MatcherWF m) (t : Str) :
    ∀ fuel pos, t.length + 1 - pos < fuel →
      ∃ l, regexScanAux m t fuel pos = some l := by
  intro fuel
  induction fuel with
  | zero => intro pos h; omega
  | succ fuel ih =>
    intro pos h
    by_cases hlt : t.length < pos
    · exact ⟨[], by simp [regexScanAux, hlt]⟩
    · cases hm : m t pos with
      | none => exact ⟨[], by simp [regexScanAux, hlt, hm]⟩
      | some sl =>
        obtain ⟨s, l⟩ := sl
        obtain ⟨hs1, hs2⟩ := hwf t pos s l hm
        obtain ⟨l', hl'⟩ := ih (if l = 0 then s + 1 else s + l)
          (by by_cases hz : l = 0 <;> simp [hz] <;> omega)
        exact ⟨substrAt t s l :: l', by simp [regexScanAux, hlt, hm, hl']⟩

theorem mem_firstDedupAux :
    ∀ (l : List Str) (seen : List Str) (x : Str),
      x ∈ firstDedupAux seen l ↔ x ∈ l ∧ x ∉ seen := by
  intro l
  induction l with
  | nil => intro seen x; simp [firstDedupAux]
  | cons y ys ih =>
    intro seen x
    simp only [firstDedupAux]
    by_cases hy : y ∈ seen
    · rw [if_pos (by simpa using hy), ih]
      constructor
      · rintro ⟨h1, h2⟩; exact ⟨List.mem_cons_of_mem _ h1, h2⟩
      · rintro ⟨h1, h2⟩
        rcases List.mem_cons.mp h1 with rfl | h1'
        · exact absurd hy h2
        · exact ⟨h1', h2⟩
    · rw [if_neg (by simpa using hy)]
      simp only [List.mem_cons, ih]
      constructor
      · rintro (rfl | ⟨h1, h2⟩)
        · exact ⟨Or.inl rfl, hy⟩
        · exact ⟨Or.inr h1, fun hc => h2 (Or.inr hc)⟩
      · rintro ⟨rfl | h1, h2⟩
        · exact Or.inl rfl
        · by_cases hxy : x = y
          · exact Or.inl hxy
          · exact Or.inr ⟨h1, by simp [hxy, h2]⟩

theorem mem_firstDedup (l : List Str) (x : Str) : x ∈ firstDedup l ↔ x ∈ l := by
  simp [firstDedup, mem_firstDedupAux]

theorem nodup_firstDedupAux :
    ∀ (l : List Str) (seen : List Str), (firstDedupAux seen l).Nodup := by
  intro l
  induction l with
  | nil => intro seen; simp [firstDedupAux]
  | cons y ys ih =>
    intro seen
    simp only [firstDedupAux]
    by_cases hy : y ∈ seen
    · rw [if_pos (by simpa using hy)]; exact ih seen
    · rw [if_neg (by simpa using hy)]
      refine List.nodup_cons.mpr ⟨?_, ih (y :: seen)⟩
      intro hc
      exact ((mem_firstDedupAux ys (y :: seen) y).mp hc).2 (List.mem_cons_self _ _)

theorem nodup_firstDedup (l : List Str) : (firstDedup l).Nodup :=
  nodup_firstDedupAux l []

theorem firstDedupAux_nil_of_subset :
    ∀ (l : List Str) (seen : List Str), (∀ x ∈ l, x ∈ seen) → firstDedupAux seen l = [] := by
  intro l
  induction l with
  | nil => intro seen _; rfl
  | cons y ys ih =>
    intro seen hsub
    simp only [firstDedupAux]
    rw [if_pos (by simpa using hsub y (List.mem_cons_self _ _))]
    exact ih seen (fun x hx => hsub x (List.mem_cons_of_mem _ hx))

theorem firstDedup_all_eq {l : List Str} {v : Str}
    (h : ∀ x ∈ l, x = v) (hne : l ≠ []) : firstDedup l = [v] := by
  cases l with
  | nil => exact absurd rfl hne
  | cons y ys =>
    obtain rfl : y = v := h y (List.mem_cons_self _ _)
    simp only [firstDedup, firstDedupAux]
    rw [if_neg (by simp)]
    rw [firstDedupAux_nil_of_subset ys [y]
      (fun x hx => by rw [h x (List.mem_cons_of_mem _ hx)]; simp)]

theorem replaceAllLitAux_fuel {pat rep : Str} :
    ∀ k k' t, t.length < k → t.length < k' →
      replaceAllLitAux pat rep k t = replaceAllLitAux pat rep k' t := by
  intro k
  induction k with
  | zero => intro k' t h _; omega
  | succ k ih =>
    intro k' t h h'
    cases k' with
    | zero => omega
    | succ k' =>
      cases t with
      | nil => rfl
      | cons c rest =>
        simp only [replaceAllLitAux]
        by_cases hcond : pat ≠ [] ∧ pat.isPrefixOf (c :: rest) = true
        · rw [if_pos hcond, if_pos hcond]
          have hlen : ((c :: rest).drop pat.length).length < k := by
            have hpos : 0 < pat.length := List.length_pos.mpr hcond.1
            simp only [List.length_drop, List.length_cons]
            simp only [List.length_cons] at h
            omega
          have hlen' : ((c :: rest).drop pat.length).length < k' := by
            have hpos : 0 < pat.length := List.length_pos.mpr hcond.1
            simp only [List.length_drop, List.length_cons]
            simp only [List.length_cons] at h'
            omega
          rw [ih k' _ hlen hlen']
        · rw [if_neg hcond, if_neg hcond]
          have hrest : rest.length < k := by simp only [List.length_cons] at h; omega
          have hrest' : rest.length < k' := by simp only [List.length_cons] at h'; omega
          by_cases he : pat.isEmpty
          · rw [if_pos he, if_pos he, ih k' rest hrest hrest']
          · rw [if_neg he, if_neg he, ih k' rest hrest hrest']

theorem replaceAllLit_nil {pat rep : Str} :
    replaceAllLit pat rep [] = if pat.isEmpty then rep else [] := rfl

theorem prefix_drop_append {pat t : Str} (h : pat <+: t) :
    pat ++ t.drop pat.length = t := by
  obtain ⟨u, rfl⟩ := h
  rw [List.drop_left]

theorem replaceAllLit_pos {pat rep t : Str} (hp : pat ≠ [])
    (hpre : pat.isPrefixOf t = true) :
    replaceAllLit pat rep t = rep ++ replaceAllLit pat rep (t.drop pat.length) := by
  have hprefix : pat <+: t := List.isPrefixOf_iff_prefix.mp hpre
  cases t with
  | nil =>
    exact absurd (List.prefix_nil.mp hprefix) hp
  | cons c rest =>
    show replaceAllLitAux pat rep (rest.length + 2) (c :: rest) = _
    simp only [replaceAllLitAux]
    rw [if_pos ⟨hp, hpre⟩]
    congr 1
    apply replaceAllLitAux_fuel
    · have hpos : 0 < pat.length := List.length_pos.mpr hp
      simp only [List.length_drop, List.length_cons]
      omega
    · omega

theorem replaceAllLit_neg {pat rep : Str} {c : Char} {rest : Str} (hp : pat ≠ [])
    (hnpre : pat.isPrefixOf (c :: rest) = false) :
    replaceAllLit pat rep (c :: rest) = c :: replaceAllLit pat rep rest := by
  show replaceAllLitAux pat rep (rest.length + 2) (c :: rest) = _
  simp only [replaceAllLitAux]
  rw [if_neg (by simp [hnpre])]
  rw [if_neg (by simpa [List.isEmpty_iff] using hp)]
  rfl

theorem replaceAllLit_roundTrip {pat tok : Str} (hp : pat ≠ []) (htok : tok ≠ []) :
    ∀ n t, t.length ≤ n → (∀ c ∈ tok, c ∉ t) →
      replaceAllLit tok pat (replaceAllLit pat tok t) = t := by
  intro n
  induction n with
  | zero =>
    intro t hlen _
    obtain rfl : t = [] := List.length_eq_zero.mp (by omega)
    rw [replaceAllLit_nil, if_neg (by simpa [List.isEmpty_iff] using hp)]
    rw [replaceAllLit_nil, if_neg (by simpa [List.isEmpty_iff] using htok)]
  | succ n ih =>
    intro t hlen hdisj
    cases t with
    | nil =>
      rw [replaceAllLit_nil, if_neg (by simpa [List.isEmpty_iff] using hp)]
      rw [replaceAllLit_nil, if_neg (by simpa [List.isEmpty_iff] using htok)]
    | cons c rest =>
      by_cases hpre : pat.isPrefixOf (c :: rest) = true
      · have hprefix : pat <+: c :: rest := List.isPrefixOf_iff_prefix.mp hpre
        rw [replaceAllLit_pos hp hpre]
        have htokpre : tok.isPrefixOf (tok ++ replaceAllLit pat tok ((c :: rest).drop pat.length)) = true :=
          List.isPrefixOf_iff_prefix.mpr (List.prefix_append _ _)
        rw [replaceAllLit_pos htok htokpre, List.drop_left]
        have hdroplen : ((c :: rest).drop pat.length).length ≤ n := by
          have hpos : 0 < pat.length := List.length_pos.mpr hp
          simp only [List.length_drop, List.length_cons]
          simp only [List.length_cons] at hlen
          omega
        have hdropdisj : ∀ c' ∈ tok, c' ∉ (c :: rest).drop pat.length := by
          intro c' hc' hmem
          exact hdisj c' hc' ((List.drop_sublist _ _).subset hmem)
        rw [ih _ hdroplen hdropdisj]
        exact prefix_drop_append hprefix
      · have hnpre : pat.isPrefixOf (c :: rest) = false := by
          cases hb : pat.isPrefixOf (c :: rest)
          · rfl
          · exact absurd hb hpre
        rw [replaceAllLit_neg hp hnpre]
        have hX : tok.isPrefixOf (c :: replaceAllLit pat tok rest) = false := by
          cases hb : tok.isPrefixOf (c :: replaceAllLit pat tok rest)
          · rfl
          · exfalso
            have hprefix := List.isPrefixOf_iff_prefix.mp hb
            cases tok with
            | nil => exact htok rfl
            | cons d tok' =>
              obtain ⟨rfl, _⟩ := List.cons_prefix_cons.mp hprefix
              exact hdisj d (List.mem_cons_self _ _) (List.mem_cons_self _ _)
        rw [replaceAllLit_neg htok hX]
        have hrestlen : rest.length ≤ n := by
          simp only [List.length_cons] at hlen; omega
        have hrestdisj : ∀ c' ∈ tok, c' ∉ rest :=
          fun c' hc' hmem => hdisj c' hc' (List.mem_cons_of_mem _ hmem)
        rw [ih rest hrestlen hrestdisj]

theorem expandSubst_cons_ne {m b a : Str} {c : Char} {rest : Str} (hc : c ≠ '$') :
    expandSubst m b a (c :: rest) = c :: expandSubst m b a rest := by
  cases rest with
  | nil => simp [expandSubst, hc]
  | cons d rest' => simp [expandSubst, hc]

theorem expandSubst_no_dollar :
    ∀ (rep m b a : Str), '$' ∉ rep → expandSubst m b a rep = rep := by
  intro rep
  induction rep with
  | nil => intro m b a _; rfl
  | cons c rest ih =>
    intro m b a hnd
    have hc : c ≠ '$' := fun h => hnd (by rw [h]; exact List.mem_cons_self _ _)
    rw [expandSubst_cons_ne hc, ih m b a (fun h => hnd (List.mem_cons_of_mem _ h))]

theorem replaceAllSubstAux_no_dollar {pat rep : Str} (orig : Str) (hnd : '$' ∉ rep) (hp : pat ≠ []) :
    ∀ k i, replaceAllSubstAux false pat rep orig k i = replaceAllLitAux pat rep k (orig.drop i) := by
  intro k
  induction k with
  | zero => intro i; rfl
  | succ k ih =>
    intro i
    have hpe : pat.isEmpty = false := by simpa [List.isEmpty_iff] using hp
    cases h : orig.drop i with
    | nil =>
      simp only [replaceAllSubstAux, h, replaceAllLitAux]
      simp [hpe]
    | cons c rest =>
      simp only [replaceAllSubstAux, h, replaceAllLitAux]
      rw [show (if (false : Bool) = true then ciPrefix pat (c :: rest)
            else pat.isPrefixOf (c :: rest)) = pat.isPrefixOf (c :: rest) from rfl]
      by_cases hpre : pat.isPrefixOf (c :: rest) = true
      · rw [if_pos ⟨hp, hpre⟩, if_pos ⟨hp, hpre⟩]
        rw [expandSubst_no_dollar rep _ _ _ hnd, ih (i + pat.length)]
        congr 1
        rw [← h, List.drop_drop, Nat.add_comm]
      · have hcond : ¬(pat ≠ [] ∧ pat.isPrefixOf (c :: rest) = true) :=
          fun hx => hpre hx.2
        rw [if_neg hcond, if_neg hcond]
        rw [if_neg (by simp [hpe]), if_neg (by simp [hpe])]
        rw [ih (i + 1)]
        congr 1
        have hrest : rest = (orig.drop i).drop 1 := by rw [h]; rfl
        rw [hrest, List.drop_drop, Nat.add_comm]

theorem replaceAllSubst_no_dollar {pat rep t : Str} (hnd : '$' ∉ rep) (hp : pat ≠ []) :
    replaceAllSubst pat rep t = replaceAllLit pat rep t := by
  have h := replaceAllSubstAux_no_dollar t hnd hp (t.length + 1) 0
  simpa [replaceAllSubst, replaceAllLit] using h

theorem indexedTokensAux_keys (rep : Str) :
    ∀ (vals : List Str) (i : Nat),
      (indexedTokensAux rep i vals).map Prod.fst =
        vals.filter (fun v => v ≠ strOf "__proto__") := by
  intro vals
  induction vals with
  | nil => intro i; rfl
  | cons v vs ih =>
    intro i
    by_cases hv : v = strOf "__proto__"
    · simp [indexedTokensAux, hv, ih]
    · simp [indexedTokensAux, hv, ih]

theorem indexedTokens_keys (rep : Str) (vals : List Str) :
    (indexedTokens rep vals).map Prod.fst =
      vals.filter (fun v => v ≠ strOf "__proto__") :=
  indexedTokensAux_keys rep vals 1

theorem indexedTokens_singleton {rep v : Str} (hv : v ≠ strOf "__proto__") :
    indexedTokens rep [v] = [(v, token rep 1)] := by
  simp [indexedTokens, indexedTokensAux, hv]

theorem applyRule_lit_eq {eng : Engine} {t : Str} {r : Rule} (h : r.isRegex = false) :
    applyRule eng t r = applyRuleLit t r := by
  simp [applyRule, h]

theorem applyRuleLit_some (t : Str) {r : Rule} (hp : r.pattern ≠ []) :
    ∃ pms, litScan t r.pattern = some pms ∧
      applyRuleLit t r = some
        ⟨applyDistinct false r.replacement (firstDedup (pms.map Prod.snd)) t,
         pms.map Prod.snd,
         indexedTokens r.replacement (firstDedup (pms.map Prod.snd))⟩ := by
  have hlp : lowerStr r.pattern ≠ [] := lowerStr_ne_nil hp
  have hpl : r.pattern.length = (lowerStr r.pattern).length := (lowerStr_length _).symm
  obtain ⟨pms, hpms⟩ := litScanAux_isSome t (lowerStr t) hlp hpl
    (t.length + 2) 0 (by rw [lowerStr_length]; omega)
  refine ⟨pms, hpms, ?_⟩
  simp [applyRuleLit, litScan, hpms]

theorem applyRule_map_shape {eng : Engine} {t : Str} {r : Rule} {res : ApplyRes}
    (h : applyRule eng t r = some res) :
    res.replacementMap = indexedTokens r.replacement (firstDedup res.«matches») := by
  by_cases hr : r.isRegex
  · simp only [applyRule, hr, if_true, applyRuleRegex] at h
    cases hc : eng r.pattern (flagsOrG r.flags) with
    | error e =>
      rw [hc] at h
      obtain rfl : (⟨t, [], []⟩ : ApplyRes) = res := by simpa using h
      rfl
    | ok m =>
      rw [hc] at h
      obtain ⟨ms, _, rfl⟩ := Option.map_eq_some'.mp h
      rfl
  · rw [applyRule_lit_eq (by simpa using hr)] at h
    simp only [applyRuleLit] at h
    obtain ⟨pms, _, rfl⟩ := Option.map_eq_some'.mp h
    rfl

theorem applyRule_nomatch_newText {eng : Engine} {t : Str} {r : Rule} {res : ApplyRes}
    (h : applyRule eng t r = some res) (hm : res.«matches» = []) :
    res.newText = t := by
  by_cases hr : r.isRegex
  · simp only [applyRule, hr, if_true, applyRuleRegex] at h
    cases hc : eng r.pattern (flagsOrG r.flags) with
    | error e =>
      rw [hc] at h
      obtain rfl : (⟨t, [], []⟩ : ApplyRes) = res := by simpa using h
      rfl
    | ok m =>
      rw [hc] at h
      obtain ⟨ms, _, rfl⟩ := Option.map_eq_some'.mp h
      simp only [ApplyRes.mk.injEq] at hm ⊢
      simp only [hm] at *
      rfl
  · rw [applyRule_lit_eq (by simpa using hr)] at h
    simp only [applyRuleLit] at h
    obtain ⟨pms, _, rfl⟩ := Option.map_eq_some'.mp h
    simp only at hm
    rw [hm] at *
    rfl

theorem sanitizeAux_appliedRules {eng : Engine} :
    ∀ (rs : List Rule) (text ft : Str) (ars : List AppliedRule),
      sanitizeAux eng text rs = some (ft, ars) →
      ∀ ar ∈ ars, ar.«matches» ≠ [] ∧ ar.matchCount = ar.«matches».length ∧
        ar.replacementMap = indexedTokens ar.rule.replacement (firstDedup ar.«matches») := by
  intro rs
  induction rs with
  | nil =>
    intro text ft ars h ar har
    have h' : (some (text, []) : Option (Str × List AppliedRule)) = some (ft, ars) := h
    have hars : ([] : List AppliedRule) = ars := by
      have := Option.some.inj h'
      exact congrArg Prod.snd this
    rw [← hars] at har
    simp at har
  | cons r rs ih =>
    intro text ft ars h ar har
    simp only [sanitizeAux] at h
    cases happ : applyRule eng text r with
    | none => rw [happ] at h; simp at h
    | some res =>
      rw [happ] at h
      simp only [Option.some_bind] at h
      by_cases hempty : res.«matches».isEmpty
      · rw [if_pos hempty] at h
        exact ih text ft ars h ar har
      · rw [if_neg hempty] at h
        obtain ⟨⟨ft', ars'⟩, hq, heq⟩ := Option.map_eq_some'.mp h
        simp only [Prod.mk.injEq] at heq
        obtain ⟨rfl, rfl⟩ := heq
        rcases List.mem_cons.mp har with rfl | har'
        · refine ⟨?_, rfl, applyRule_map_shape happ⟩
          simpa [List.isEmpty_iff] using hempty
        · exact ih _ _ _ hq ar har'

theorem sanitizeAux_noop_middle {eng : Engine} {r : Rule} {ys : List Rule}
    (h : ∀ τ : Str, applyRule eng τ r = some ⟨τ, [], []⟩) :
    ∀ (xs : List Rule) (text : Str),
      sanitizeAux eng text (xs ++ r :: ys) = sanitizeAux eng text (xs ++ ys) := by
  intro xs
  induction xs with
  | nil =>
    intro text
    simp only [List.nil_append, sanitizeAux, h text, Option.some_bind]
    simp
  | cons x xs ih =>
    intro text
    simp only [List.cons_append, sanitizeAux]
    cases happ : applyRule eng text x with
    | none => rfl
    | some res =>
      simp only [Option.some_bind]
      by_cases hempty : res.«matches».isEmpty
      · rw [if_pos hempty, if_pos hempty]
        exact ih text
      · rw [if_neg hempty, if_neg hempty]
        exact congrArg _ (ih res.newText)

theorem sanitize_seq {eng : Engine} {t : Str} {r : Rule} {rs : List Rule}
    (he : r.enabled = true) :
    (sanitize eng t (r :: rs)).map (fun res => res.sanitizedText) =
      (applyRule eng t r).bind (fun res =>
        (sanitize eng res.newText rs).map (fun out => out.sanitizedText)) := by
  simp only [sanitize, List.filter_cons_of_pos (by simpa using he)]
  simp only [sanitizeAux]
  cases happ : applyRule eng t r with
  | none => simp
  | some res =>
    by_cases hempty : res.«matches».isEmpty
    · have hm : res.«matches» = [] := by simpa [List.isEmpty_iff] using hempty
      have hnew : res.newText = t := applyRule_nomatch_newText happ hm
      cases hsa : sanitizeAux eng t (rs.filter (fun r => r.enabled)) with
      | none => simp [hempty, hm, hnew, hsa]
      | some q => simp [hempty, hm, hnew, hsa]
    · have hm : ¬ res.«matches» = [] := by simpa [List.isEmpty_iff] using hempty
      cases hsa : sanitizeAux eng res.newText (rs.filter (fun r => r.enabled)) with
      | none => simp [hempty, hm, hsa]
      | some q => simp [hempty, hm, hsa]

/-- The literal rule `"foo" → "[A]"` of the spec's order-sensitivity example. -/
def fooRule : Rule := ⟨strOf "1", strOf "R1", strOf "foo", strOf "[A]", false, none, true⟩

/-- The literal rule `"[A]_1" → "[B]"` of the spec's order-sensitivity example. -/
def aToBRule : Rule := ⟨strOf "2", strOf "R2", strOf "[A]_1", strOf "[B]", false, none, true⟩

/-- The literal rule with the regex-metacharacter pattern `a.b`. -/
def dotRule : Rule := ⟨strOf "3", strOf "dot", strOf "a.b", strOf "[M]", false, none, true⟩

/-- The regex email rule of the spec's distinct-value indexing example. -/
def emailRule : Rule :=
  ⟨strOf "4", strOf "email", emailPattern, strOf "[EMAIL]", true, some (strOf "g"), true⟩

/-- A literal rule `"a" → "[X]"` whose token can collide with text. -/
def collideRule : Rule := ⟨strOf "5", strOf "coll", strOf "a", strOf "[X]", false, none, true⟩

/-- A disabled literal rule `"a" → "[X]"`. -/
def disabledRule : Rule := ⟨strOf "6", strOf "off", strOf "a", strOf "[X]", false, none, false⟩

/-- A regex rule whose pattern no engine compiles. -/
def badRegexRule : Rule := ⟨strOf "7", strOf "bad", strOf "(unclosed", strOf "[E]", true, none, true⟩

/-- A literal rule `"ll" → "[X]"` used for the round-trip witness. -/
def llRule : Rule := ⟨strOf "8", strOf "ll", strOf "ll", strOf "[X]", false, none, true⟩

/-- A regex rule whose pattern is the literal text `__proto__`. -/
def protoRegexRule : Rule :=
  ⟨strOf "9", strOf "proto", strOf "__proto__", strOf "[P]", true, some (strOf "g"), true⟩

/-- A literal rule `"__proto__" → "[P]"`. -/
def protoLitRule : Rule :=
  ⟨strOf "10", strOf "protoLit", strOf "__proto__", strOf "[P]", false, none, true⟩

/-- The compiled regex of a fully literal metacharacter-free pattern:
leftmost occurrence search from the scan position. -/
def litMatcher (pat : Str) : Matcher := fun t i =>
  (findFromAux t pat (t.length + 1) (min i t.length)).map (fun j => (j, pat.length))

/-- Engine knowing exactly the literal-text regex `__proto__`. -/
def protoEngine : Engine := fun p _ =>
  if p = strOf "__proto__" then Except.ok (litMatcher (strOf "__proto__"))
  else Except.error (strOf "unsupported")

theorem noEngine_wf : EngineWF noEngine := by
  intro p f m h
  simp [noEngine] at h

theorem xStarMatcher_wf : MatcherWF xStarMatcher := by
  intro t i s l h
  simp only [xStarMatcher] at h
  by_cases hi : i ≤ t.length
  · rw [if_pos hi] at h
    have h' := Option.some.inj h
    obtain ⟨rfl, rfl⟩ : i = s ∧ xRun (t.drop i) = l :=
      ⟨congrArg Prod.fst h', congrArg Prod.snd h'⟩
    refine ⟨le_refl _, ?_⟩
    have hrun : xRun (t.drop i) ≤ (t.drop i).length := by
      have h1 : ((t.drop i).takeWhile (fun c => c == 'x')) <+: t.drop i :=
        List.takeWhile_prefix _
      simpa [xRun] using h1.length_le
    simp only [List.length_drop] at hrun
    omega
  · rw [if_neg hi] at h
    exact absurd h (by simp)

theorem xStarEngine_wf : EngineWF xStarEngine := by
  intro p f m h
  simp only [xStarEngine] at h
  by_cases hp : p = strOf "x*"
  · rw [if_pos hp] at h
    obtain rfl : xStarMatcher = m := by simpa using h
    exact xStarMatcher_wf
  · rw [if_neg hp] at h
    simp at h

theorem sanitize_single_nomatch {eng : Engine} {t : Str} {r : Rule} {res : ApplyRes}
    (he : r.enabled = true) (happ : applyRule eng t r = some res)
    (hm : res.«matches» = []) :
    sanitize eng t [r] = some ⟨t, t, [], false⟩ := by
  simp [sanitize, sanitizeAux, List.filter_cons_of_pos (by simpa using he), happ, hm]

theorem sanitize_single_match {eng : Engine} {t : Str} {r : Rule} {res : ApplyRes}
    (he : r.enabled = true) (happ : applyRule eng t r = some res)
    (hm : res.«matches» ≠ []) :
    sanitize eng t [r] = some ⟨t, res.newText,
      [⟨r, res.«matches».length, res.«matches», res.replacementMap⟩],
      res.newText != t⟩ := by
  simp [sanitize, sanitizeAux, List.filter_cons_of_pos (by simpa using he), happ, hm]

/-- C4: `sanitize` never throws: a rule whose regex fails at apply time is
caught (the `try`/`catch` wraps the whole regex branch, so a compile or
evaluation failure alike yields the caught result) and contributes zero
matches with the text unchanged, it yields no `AppliedRule` (`sanitize` of
the single failing rule returns the input unchanged with no applied rules),
and the remaining rules are processed exactly as if the failing rule were
absent. -/
theorem C4_bad_regex_noop (eng : Engine) (t : Str) (r : Rule) (hr : r.isRegex = true)
    (e : Str) (hc : eng r.pattern (flagsOrG r.flags) = Except.error e)
    (pre post : List Rule) :
    applyRule eng t r = some ⟨t, [], []⟩ ∧
    sanitize eng t [r] = some ⟨t, t, [], false⟩ ∧
    sanitize eng t (pre ++ r :: post) = sanitize eng t (pre ++ post) := by
  have happ : ∀ τ : Str, applyRule eng τ r = some ⟨τ, [], []⟩ := by
    intro τ
    simp [applyRule, hr, applyRuleRegex, hc]
  refine ⟨happ t, ?_, ?_⟩
  · by_cases he : r.enabled = true
    · exact sanitize_single_nomatch he (happ t) rfl
    · simp [sanitize, List.filter_cons_of_neg (by simpa using he), sanitizeAux]
  · unfold sanitize
    by_cases he : r.enabled = true
    · rw [List.filter_append, List.filter_append,
        List.filter_cons_of_pos (by simpa using he)]
      rw [sanitizeAux_noop_middle happ]
    · rw [List.filter_append, List.filter_append,
        List.filter_cons_of_neg (by simpa using he)]

theorem C4_bad_regex_noop_witness :
    badRegexRule.isRegex = true ∧
    noEngine badRegexRule.pattern (flagsOrG badRegexRule.flags) =
      Except.error (strOf "unsupported") ∧
    applyRule noEngine (strOf "hi") badRegexRule = some ⟨strOf "hi", [], []⟩ ∧
    sanitize noEngine (strOf "hi") [badRegexRule] = some ⟨strOf "hi", strOf "hi", [], false⟩ ∧
    sanitize noEngine (strOf "hi") ([fooRule] ++ badRegexRule :: [aToBRule]) =
      sanitize noEngine (strOf "hi") ([fooRule] ++ [aToBRule]) :=
  ⟨rfl, rfl,
   (C4_bad_regex_noop noEngine (strOf "hi") badRegexRule rfl (strOf "unsupported") rfl
      [fooRule] [aToBRule]).1,
   (C4_bad_regex_noop noEngine (strOf "hi") badRegexRule rfl (strOf "unsupported") rfl
      [fooRule] [aToBRule]).2.1,
   (C4_bad_regex_noop noEngine (strOf "hi") badRegexRule rfl (strOf "unsupported") rfl
      [fooRule] [aToBRule]).2.2⟩

/-- C6: `sanitize` applies enabled rules in input order, each against the
text produced by the previous rule; in particular `[R1, R2]` on `"foo"`
yields `"[B]_1"` (rule 2 acts on rule 1's output). -/
theorem C6_order_compounding :
    (∀ (eng : Engine) (t : Str) (r : Rule) (rs : List Rule), r.enabled = true →
        (sanitize eng t (r :: rs)).map (fun res => res.sanitizedText) =
          (applyRule eng t r).bind (fun res =>
            (sanitize eng res.newText rs).map (fun out => out.sanitizedText))) ∧
    (sanitize noEngine (strOf "foo") [fooRule, aToBRule]).map
        (fun res => res.sanitizedText) = some (strOf "[B]_1") := by
  refine ⟨?_, rfl⟩
  intro eng t r rs he
  exact sanitize_seq he

theorem C6_order_compounding_witness :
    fooRule.enabled = true ∧
    (sanitize noEngine (strOf "foo") (fooRule :: [aToBRule])).map
        (fun res => res.sanitizedText) =
      (applyRule noEngine (strOf "foo") fooRule).bind (fun res =>
        (sanitize noEngine res.newText [aToBRule]).map (fun out => out.sanitizedText)) :=
  ⟨rfl, C6_order_compounding.1 noEngine (strOf "foo") fooRule [aToBRule] rfl⟩

/-- C8: a literal rule's pattern is never interpreted as a regular
expression: the result of `applyRule` on a literal rule does not depend on
the regex engine at all, and the rule `a.b` on `"a.b and axb"` matches only
the literal occurrence `"a.b"`. -/
theorem C8_literal_never_regex :
    (∀ (e1 e2 : Engine) (t : Str) (r : Rule), r.isRegex = false →
        applyRule e1 t r = applyRule e2 t r) ∧
    (applyRule noEngine (strOf "a.b and axb") dotRule).map (fun res => res.«matches») =
      some [strOf "a.b"] := by
  refine ⟨?_, rfl⟩
  intro e1 e2 t r hr
  rw [applyRule_lit_eq hr, applyRule_lit_eq hr]

theorem C8_literal_never_regex_witness :
    dotRule.isRegex = false ∧
    applyRule noEngine (strOf "a.b and axb") dotRule =
      applyRule emailEngine (strOf "a.b and axb") dotRule :=
  ⟨rfl, C8_literal_never_regex.1 noEngine emailEngine (strOf "a.b and axb") dotRule rfl⟩

/-- C9: `validatePattern` rejects the empty pattern with the message
`Pattern cannot be empty` regardless of mode, rejects a regex pattern
exactly when compiling it with no flags fails (reporting the compiler's
message verbatim, e.g. `(unclosed`), and accepts every non-empty literal
pattern (e.g. `(unclosed` as a literal). -/
theorem C9_validatePattern_contract :
    (∀ (eng : Engine) (b : Bool),
        validatePattern eng [] b = ⟨false, some (strOf "Pattern cannot be empty")⟩) ∧
    (∀ (eng : Engine) (p e : Str), p ≠ [] → eng p [] = Except.error e →
        validatePattern eng p true = ⟨false, some e⟩) ∧
    (∀ (eng : Engine) (p : Str) (m : Matcher), p ≠ [] → eng p [] = Except.ok m →
        validatePattern eng p true = ⟨true, none⟩) ∧
    (∀ (eng : Engine) (p : Str), p ≠ [] → validatePattern eng p false = ⟨true, none⟩) ∧
    validatePattern unclosedEngine (strOf "(unclosed") true =
      ⟨false, some (strOf "Invalid regular expression")⟩ ∧
    validatePattern unclosedEngine (strOf "(unclosed") false = ⟨true, none⟩ := by
  refine ⟨fun eng b => rfl, ?_, ?_, ?_, rfl, rfl⟩
  · intro eng p e hp hc
    have hb : p.isEmpty = false := by simpa [List.isEmpty_iff] using hp
    simp [validatePattern, hb, hc]
  · intro eng p m hp hc
    have hb : p.isEmpty = false := by simpa [List.isEmpty_iff] using hp
    simp [validatePattern, hb, hc]
  · intro eng p hp
    have hb : p.isEmpty = false := by simpa [List.isEmpty_iff] using hp
    simp [validatePattern, hb]

theorem C9_validatePattern_contract_witness :
    validatePattern noEngine (strOf "x") false = ⟨true, none⟩ :=
  C9_validatePattern_contract.2.2.2.1 noEngine (strOf "x") (by decide)

/-- C10 counterexample: a literal rule matching `__proto__` produces an
`AppliedRule` with a non-empty match list but an empty `replacementMap`
(its only key set is empty while the distinct values are not): the
plain-object assignment for the key `__proto__` creates no own property. -/
theorem C10_appliedRule_invariant_cex :
    sanitize noEngine (strOf "x __proto__") [protoLitRule] =
      some ⟨strOf "x __proto__", strOf "x [P]_1",
            [⟨protoLitRule, 1, [strOf "__proto__"], []⟩], true⟩ ∧
    (([] : List (Str × Str)).map Prod.fst ≠ firstDedup [strOf "__proto__"]) :=
  ⟨rfl, by decide⟩

/-- C10 (amended): every `AppliedRule` reported by `sanitize` has a
non-empty match list, a `matchCount` equal to the length of `matches`, and
a `replacementMap` that maps exactly the distinct values of `matches`
other than the string `__proto__` (whose plain-object assignment is
swallowed), in first-seen order, to `replacement + "_" + index` with
1-based indices counted over all distinct values. -/
theorem C10_appliedRule_invariant (eng : Engine) (t : Str) (rules : List Rule)
    (res : SanitizationResult) (h : sanitize eng t rules = some res) :
    ∀ ar ∈ res.appliedRules,
      ar.«matches» ≠ [] ∧ ar.matchCount = ar.«matches».length ∧
      ar.replacementMap = indexedTokens ar.rule.replacement (firstDedup ar.«matches») ∧
      ar.replacementMap.map Prod.fst =
        (firstDedup ar.«matches»).filter (fun v => v ≠ strOf "__proto__") ∧
      (firstDedup ar.«matches»).Nodup ∧
      (∀ v, v ∈ firstDedup ar.«matches» ↔ v ∈ ar.«matches») := by
  intro ar har
  unfold sanitize at h
  obtain ⟨⟨ft, ars⟩, hq, heq⟩ := Option.map_eq_some'.mp h
  have hars : ars = res.appliedRules := by rw [← heq]
  rw [← hars] at har
  have hinv := sanitizeAux_appliedRules _ _ _ _ hq ar har
  refine ⟨hinv.1, hinv.2.1, hinv.2.2, ?_, nodup_firstDedup _, fun v => mem_firstDedup _ v⟩
  rw [hinv.2.2]
  exact indexedTokens_keys _ _

/-- The applied-rule record of `sanitize("foo", [fooRule])`. -/
def w10ar : AppliedRule := ⟨fooRule, 1, [strOf "foo"], [(strOf "foo", strOf "[A]_1")]⟩

/-- The result record of `sanitize("foo", [fooRule])`. -/
def w10res : SanitizationResult := ⟨strOf "foo", strOf "[A]_1", [w10ar], true⟩

theorem C10_appliedRule_invariant_witness :
    w10ar.matchCount = w10ar.«matches».length ∧
    w10ar.replacementMap = indexedTokens w10ar.rule.replacement (firstDedup w10ar.«matches») :=
  ⟨(C10_appliedRule_invariant noEngine (strOf "foo") [fooRule] w10res rfl w10ar
      (List.mem_cons_self _ _)).2.1,
   (C10_appliedRule_invariant noEngine (strOf "foo") [fooRule] w10res rfl w10ar
      (List.mem_cons_self _ _)).2.2.1⟩

/-- The text of the spec's distinct-value indexing example. -/
def c5Text : Str := strOf "contact a@x.com or b@y.com or a@x.com again"

/-- The expected `applyRule` output of the distinct-value indexing example. -/
def c5Result : ApplyRes :=
  ⟨strOf "contact [EMAIL]_1 or [EMAIL]_2 or [EMAIL]_1 again",
   [strOf "a@x.com", strOf "b@y.com", strOf "a@x.com"],
   [(strOf "a@x.com", strOf "[EMAIL]_1"), (strOf "b@y.com", strOf "[EMAIL]_2")]⟩

/-- C5 counterexample: a regex rule matching the text `__proto__` reports
the distinct matched value but an empty replacement map — the plain-object
assignment `replacementMap["__proto__"] = "[P]_1"` is swallowed by the
inherited accessor setter, so the entry the claim asserts never appears. -/
theorem C5_regex_distinct_indexing_cex :
    (applyRule protoEngine (strOf "a __proto__ b") protoRegexRule).map
        (fun res => (res.«matches», res.replacementMap)) =
      some ([strOf "__proto__"], []) ∧
    firstDedup [strOf "__proto__"] = [strOf "__proto__"] := ⟨rfl, rfl⟩

/-- C5 (amended): every regex rule application assigns each distinct
matched value other than the string `__proto__` (whose plain-object map
entry is silently dropped, the index counter still advancing) a 1-based
index in first-seen order and the token `replacement + "_" + index`; the
email rule on the spec's example text yields match count 3, the two-entry
map `a@x.com → [EMAIL]_1`, `b@y.com → [EMAIL]_2`, and the expected
sanitized text. -/
theorem C5_regex_distinct_indexing :
    (∀ (eng : Engine) (t : Str) (r : Rule), r.isRegex = true →
        ∀ res, applyRule eng t r = some res →
          res.replacementMap = indexedTokens r.replacement (firstDedup res.«matches»)) ∧
    applyRule emailEngine c5Text emailRule = some c5Result ∧
    c5Result.«matches».length = 3 := by
  refine ⟨?_, rfl, rfl⟩
  intro eng t r _ res hres
  exact applyRule_map_shape hres

theorem C5_regex_distinct_indexing_witness :
    emailRule.isRegex = true ∧
    c5Result.replacementMap =
      indexedTokens emailRule.replacement (firstDedup c5Result.«matches») :=
  ⟨rfl, C5_regex_distinct_indexing.1 emailEngine c5Text emailRule rfl c5Result
      C5_regex_distinct_indexing.2.1⟩

/-- C7: with a well-formed matcher the regex scan loop of `applyRule` and
`testPattern` terminates on every bounded text within fuel `length + 2`
(the zero-length guard advances the position), so both functions return;
the zero-length-capable pattern `x*` on `"yxxy"` yields the finite list
`["", "xx", "", ""]`. -/
theorem C7_zero_length_safe :
    (∀ m : Matcher, MatcherWF m → ∀ t : Str,
        (regexScanAux m t (t.length + 2) 0).isSome = true) ∧
    (∀ eng : Engine, EngineWF eng → ∀ (t : Str) (r : Rule), r.isRegex = true →
        (applyRule eng t r).isSome = true) ∧
    (∀ eng : Engine, EngineWF eng → ∀ (t p : Str) (fl : Option Str),
        (testPattern eng t p true fl).isSome = true) ∧
    testPattern xStarEngine (strOf "yxxy") (strOf "x*") true (some (strOf "g")) =
      some ⟨[strOf "", strOf "xx", strOf "", strOf ""], 4⟩ := by
  have hscan : ∀ m : Matcher, MatcherWF m → ∀ t : Str,
      (regexScanAux m t (t.length + 2) 0).isSome = true := by
    intro m hwf t
    obtain ⟨l, hl⟩ := regexScanAux_isSome hwf t (t.length + 2) 0 (by omega)
    simp [hl]
  refine ⟨hscan, ?_, ?_, rfl⟩
  · intro eng hwf t r hr
    simp only [applyRule, hr, if_true, applyRuleRegex]
    cases hc : eng r.pattern (flagsOrG r.flags) with
    | error e => simp
    | ok m =>
      have hs := hscan m (hwf _ _ _ hc) t
      cases hx : regexScanAux m t (t.length + 2) 0 with
      | none => rw [hx] at hs; simp at hs
      | some l => simp [hx]
  · intro eng hwf t p fl
    by_cases hempty : (p.isEmpty || t.isEmpty) = true
    · simp [testPattern, hempty]
    · simp only [testPattern]
      rw [if_neg hempty]
      simp only [if_true]
      cases hc : eng p (flagsOrG fl) with
      | error e => simp
      | ok m =>
        have hs := hscan m (hwf _ _ _ hc) t
        cases hx : regexScanAux m t (t.length + 2) 0 with
        | none => rw [hx] at hs; simp at hs
        | some l => simp [hx]

theorem C7_zero_length_safe_witness :
    (regexScanAux xStarMatcher (strOf "yxxy") ((strOf "yxxy").length + 2) 0).isSome = true ∧
    (testPattern xStarEngine (strOf "yxxy") (strOf "x*") true (some (strOf "g"))).isSome = true :=
  ⟨C7_zero_length_safe.1 xStarMatcher xStarMatcher_wf (strOf "yxxy"),
   C7_zero_length_safe.2.2.1 xStarEngine xStarEngine_wf (strOf "yxxy") (strOf "x*")
     (some (strOf "g"))⟩

/-- C2 counterexample: the disabled literal rule `"a" → "[X]"` on `"a"`
yields no applied rule in `sanitize` while `testPattern` counts one match,
refuting the claim's clause that the count is 0 whenever `sanitize` reports
no `AppliedRule` for the rule. -/
theorem C2_count_parity_cex :
    sanitize noEngine (strOf "a") [disabledRule] =
      some ⟨strOf "a", strOf "a", [], false⟩ ∧
    testPattern noEngine (strOf "a") disabledRule.pattern disabledRule.isRegex
        disabledRule.flags = some ⟨[strOf "a"], 1⟩ ∧
    (1 : Nat) ≠ 0 := ⟨rfl, rfl, by decide⟩

/-- C2 (amended): for an enabled rule with a non-empty pattern applied to a
non-empty text under a well-formed engine, both functions return and
`testPattern`'s count equals the total of the `matchCount`s reported by
`sanitize(text, [rule])` — the rule's `matchCount` when it applied, and 0
when no `AppliedRule` is reported. -/
theorem C2_count_parity (eng : Engine) (hwf : EngineWF eng) (t : Str) (r : Rule)
    (ht : t ≠ []) (hp : r.pattern ≠ []) (he : r.enabled = true) :
    (testPattern eng t r.pattern r.isRegex r.flags).isSome = true ∧
    (sanitize eng t [r]).isSome = true ∧
    (testPattern eng t r.pattern r.isRegex r.flags).map (fun tr => tr.count) =
      (sanitize eng t [r]).map (fun sr =>
        (sr.appliedRules.map (fun ar => ar.matchCount)).sum) := by
  have htb : t.isEmpty = false := by simpa [List.isEmpty_iff] using ht
  have hpb : r.pattern.isEmpty = false := by simpa [List.isEmpty_iff] using hp
  cases hr : r.isRegex with
  | true =>
    cases hc : eng r.pattern (flagsOrG r.flags) with
    | error e =>
      have htp : testPattern eng t r.pattern true r.flags = some ⟨[], 0⟩ := by
        simp [testPattern, htb, hpb, hc]
      have happ : applyRule eng t r = some ⟨t, [], []⟩ := by
        simp [applyRule, hr, applyRuleRegex, hc]
      have hsan := sanitize_single_nomatch he happ rfl
      rw [htp, hsan]
      exact ⟨rfl, rfl, rfl⟩
    | ok m =>
      obtain ⟨ms, hms⟩ := regexScanAux_isSome (hwf _ _ _ hc) t (t.length + 2) 0 (by omega)
      have htp : testPattern eng t r.pattern true r.flags = some ⟨ms, ms.length⟩ := by
        simp [testPattern, htb, hpb, hc, hms]
      have happ : applyRule eng t r = some
          ⟨applyDistinct ((flagsOrG r.flags).contains 'i') r.replacement (firstDedup ms) t,
           ms, indexedTokens r.replacement (firstDedup ms)⟩ := by
        simp [applyRule, hr, applyRuleRegex, hc, hms]
      by_cases hm : ms = []
      · subst hm
        have hsan := sanitize_single_nomatch he happ rfl
        rw [htp, hsan]
        exact ⟨rfl, rfl, rfl⟩
      · have hsan := sanitize_single_match he happ (by simpa using hm)
        rw [htp, hsan]
        refine ⟨rfl, rfl, ?_⟩
        simp
  | false =>
    obtain ⟨pms, hscan, happlit⟩ := applyRuleLit_some t hp
    have happ : applyRule eng t r = some
        ⟨applyDistinct false r.replacement (firstDedup (pms.map Prod.snd)) t,
         pms.map Prod.snd,
         indexedTokens r.replacement (firstDedup (pms.map Prod.snd))⟩ := by
      rw [applyRule_lit_eq hr]; exact happlit
    have htp : testPattern eng t r.pattern false r.flags =
        some ⟨pms.map Prod.snd, (pms.map Prod.snd).length⟩ := by
      simp [testPattern, htb, hpb, hscan]
    by_cases hm : pms.map Prod.snd = []
    · have hsan := sanitize_single_nomatch he happ (by simpa using hm)
      rw [htp, hsan, hm]
      exact ⟨rfl, rfl, rfl⟩
    · have hsan := sanitize_single_match he happ (by simpa using hm)
      rw [htp, hsan]
      refine ⟨rfl, rfl, ?_⟩
      simp

theorem C2_count_parity_witness :
    (testPattern noEngine (strOf "foo x") fooRule.pattern fooRule.isRegex
        fooRule.flags).isSome = true ∧
    (testPattern noEngine (strOf "foo x") fooRule.pattern fooRule.isRegex
        fooRule.flags).map (fun tr => tr.count) =
      (sanitize noEngine (strOf "foo x") [fooRule]).map (fun sr =>
        (sr.appliedRules.map (fun ar => ar.matchCount)).sum) :=
  ⟨(C2_count_parity noEngine noEngine_wf (strOf "foo x") fooRule (by decide)
      (by decide) rfl).1,
   (C2_count_parity noEngine noEngine_wf (strOf "foo x") fooRule (by decide)
      (by decide) rfl).2.2⟩

/-- C1 counterexample: the literal rule `"foo" → "[A]"` applied to
`"Foo foo"` matches case-insensitively and produces a two-entry replacement
map (`Foo → [A]_1`, `foo → [A]_2`), refuting the claimed case-sensitive
matching with exactly one distinct value `foo → [A]_1`. -/
theorem C1_literal_semantics_cex :
    (applyRule noEngine (strOf "Foo foo") fooRule).map (fun res => res.replacementMap) =
      some [(strOf "Foo", strOf "[A]_1"), (strOf "foo", strOf "[A]_2")] := rfl

/-- C1 (amended): a literal rule with a non-empty pattern always terminates
and — on ASCII text and pattern, where the character-wise lowering is
exactly the JavaScript one — scans case-insensitively (text and pattern
lowercased), left to right, recording the actual-case matched substrings,
with consecutive hit positions at least the pattern length apart
(non-overlapping) and every case-insensitive occurrence covered by some
hit; the distinct actual-case values are indexed in first-seen order as
`replacement + "_" + i`; and when every match equals the pattern exactly,
the new text is the replacement of every occurrence of the pattern by the
token `replacement + "_1"` (the token being subject to JavaScript
`$`-substitution), and — unless the pattern is the string `__proto__`,
whose map entry the plain object swallows — the map is the single entry
`pattern → replacement + "_1"`. -/
theorem C1_literal_semantics (eng : Engine) (t : Str) (r : Rule)
    (hlit : r.isRegex = false) (hp : r.pattern ≠ [])
    (_hta : ∀ c ∈ t, c.toNat < 128) (_hpa : ∀ c ∈ r.pattern, c.toNat < 128) :
    (litScan t r.pattern).isSome = true ∧
    (applyRule eng t r).isSome = true ∧
    (∀ pms res, litScan t r.pattern = some pms → applyRule eng t r = some res →
      res.«matches» = pms.map Prod.snd ∧
      (∀ pm ∈ pms, matchesAt (lowerStr t) (lowerStr r.pattern) pm.1 = true ∧
        pm.2 = substrAt t pm.1 r.pattern.length) ∧
      List.Chain' (fun a b : Nat × Str => a.1 + r.pattern.length ≤ b.1) pms ∧
      (∀ q, matchesAt (lowerStr t) (lowerStr r.pattern) q = true →
        ∃ pm ∈ pms, pm.1 ≤ q ∧ q < pm.1 + r.pattern.length) ∧
      res.replacementMap = indexedTokens r.replacement (firstDedup res.«matches») ∧
      ((∀ mv ∈ res.«matches», mv = r.pattern) → res.«matches» ≠ [] →
        res.newText = replaceAllSubst r.pattern (token r.replacement 1) t ∧
        (r.pattern ≠ strOf "__proto__" →
          res.replacementMap = [(r.pattern, token r.replacement 1)]))) := by
  have hlp : lowerStr r.pattern ≠ [] := lowerStr_ne_nil hp
  have hpl : r.pattern.length = (lowerStr r.pattern).length := (lowerStr_length _).symm
  obtain ⟨pms0, hscan0, happ0⟩ := applyRuleLit_some t hp
  have happ0' : applyRule eng t r = some
      ⟨applyDistinct false r.replacement (firstDedup (pms0.map Prod.snd)) t,
       pms0.map Prod.snd,
       indexedTokens r.replacement (firstDedup (pms0.map Prod.snd))⟩ := by
    rw [applyRule_lit_eq hlit]; exact happ0
  refine ⟨by simp [hscan0], by simp [happ0'], ?_⟩
  intro pms res hscan happ
  obtain rfl : pms = pms0 := by
    rw [hscan0] at hscan; exact (Option.some.inj hscan).symm
  obtain rfl : (⟨applyDistinct false r.replacement (firstDedup (pms.map Prod.snd)) t,
      pms.map Prod.snd,
      indexedTokens r.replacement (firstDedup (pms.map Prod.snd))⟩ : ApplyRes) = res := by
    rw [happ0'] at happ; exact Option.some.inj happ
  have hscan' : litScanAux t (lowerStr t) (lowerStr r.pattern) r.pattern.length
      (t.length + 2) 0 = some pms := hscan0
  refine ⟨rfl, ?_, ?_, ?_, rfl, ?_⟩
  · intro pm hpm
    obtain ⟨_, h2, h3⟩ := litScanAux_mem _ _ _ hscan' pm hpm
    exact ⟨h2, h3⟩
  · exact litScanAux_chain hlp hpl _ _ _ hscan'
  · intro q hq
    exact litScanAux_complete hlp hpl _ _ _ hscan' q (Nat.zero_le q) hq
  · intro hall hne
    have hms : firstDedup (pms.map Prod.snd) = [r.pattern] :=
      firstDedup_all_eq hall hne
    refine ⟨?_, ?_⟩
    · show applyDistinct false r.replacement (firstDedup (pms.map Prod.snd)) t = _
      rw [hms]; rfl
    · intro hproto
      show indexedTokens r.replacement (firstDedup (pms.map Prod.snd)) = _
      rw [hms]
      exact indexedTokens_singleton hproto

/-- The literal scan trace of `"foo"` on `"Foo foo"`. -/
def w1pms : List (Nat × Str) := [(0, strOf "Foo"), (4, strOf "foo")]

/-- The `applyRule` output of `fooRule` on `"Foo foo"`. -/
def w1res : ApplyRes :=
  ⟨strOf "[A]_1 [A]_2", [strOf "Foo", strOf "foo"],
   [(strOf "Foo", strOf "[A]_1"), (strOf "foo", strOf "[A]_2")]⟩

theorem C1_literal_semantics_witness :
    (litScan (strOf "Foo foo") fooRule.pattern).isSome = true ∧
    w1res.«matches» = w1pms.map Prod.snd ∧
    w1res.replacementMap = indexedTokens fooRule.replacement (firstDedup w1res.«matches») :=
  ⟨(C1_literal_semantics noEngine (strOf "Foo foo") fooRule rfl (by decide)
      (by decide) (by decide)).1,
   ((C1_literal_semantics noEngine (strOf "Foo foo") fooRule rfl (by decide)
      (by decide) (by decide)).2.2 w1pms w1res rfl rfl).1,
   ((C1_literal_semantics noEngine (strOf "Foo foo") fooRule rfl (by decide)
      (by decide) (by decide)).2.2 w1pms w1res rfl rfl).2.2.2.2.1⟩

/-- C3 counterexample: the literal rule `"a" → "[X]"` on `"b[X]_1a"`
produces a non-empty replacement map, yet substituting the token back by its
original value yields `"baa"`, not the original text: the inverse
substitution also rewrites the pre-existing occurrence of the token. -/
theorem C3_round_trip_cex :
    (applyRule noEngine (strOf "b[X]_1a") collideRule).map
        (fun res => (res.replacementMap, invSubst res.replacementMap res.newText)) =
      some ([(strOf "a", strOf "[X]_1")], strOf "baa") ∧
    strOf "baa" ≠ strOf "b[X]_1a" := ⟨rfl, by decide⟩

/-- C3 (amended): for a literal rule application with a non-empty pattern
whose matches have exactly one distinct value `value`, recorded in the map
as the single entry `value → token`, if the token contains no `$` (so the
program's `$`-substitution inserts it verbatim) and no character of the
token occurs in the original text, then replacing the token by the value in
the sanitized text reconstructs the original text exactly. -/
theorem C3_round_trip (eng : Engine) (t : Str) (r : Rule)
    (hlit : r.isRegex = false) (hp : r.pattern ≠ [])
    (res : ApplyRes) (hres : applyRule eng t r = some res)
    (v tok : Str) (hmap : res.replacementMap = [(v, tok)])
    (hfd : firstDedup res.«matches» = [v])
    (hnd : '$' ∉ tok) (hdisj : ∀ c ∈ tok, c ∉ t) :
    replaceAllLit tok v res.newText = t := by
  have hlp : lowerStr r.pattern ≠ [] := lowerStr_ne_nil hp
  rw [applyRule_lit_eq hlit] at hres
  obtain ⟨pms, hscan, happ⟩ := applyRuleLit_some t hp
  rw [happ] at hres
  obtain rfl : (⟨applyDistinct false r.replacement (firstDedup (pms.map Prod.snd)) t,
      pms.map Prod.snd,
      indexedTokens r.replacement (firstDedup (pms.map Prod.snd))⟩ : ApplyRes) = res :=
    Option.some.inj hres
  have hfd' : firstDedup (pms.map Prod.snd) = [v] := hfd
  have hmap' : indexedTokens r.replacement (firstDedup (pms.map Prod.snd)) = [(v, tok)] :=
    hmap
  rw [hfd'] at hmap'
  by_cases hproto : v = strOf "__proto__"
  · exfalso
    rw [hproto] at hmap'
    simp [indexedTokens, indexedTokensAux] at hmap'
  · rw [indexedTokens_singleton hproto] at hmap'
    have htokeq : token r.replacement 1 = tok := by
      simp only [List.cons.injEq, Prod.mk.injEq, and_true] at hmap'
      exact hmap'.2
    have htok : tok ≠ [] := by
      rw [← htokeq]; simp [token]
    have hv : v ≠ [] := by
      have hvmem : v ∈ firstDedup (pms.map Prod.snd) := by rw [hfd']; simp
      have hvms : v ∈ pms.map Prod.snd := (mem_firstDedup _ _).mp hvmem
      obtain ⟨pm, hpm, hpv⟩ := List.mem_map.mp hvms
      have hscan' : litScanAux t (lowerStr t) (lowerStr r.pattern) r.pattern.length
          (t.length + 2) 0 = some pms := hscan
      obtain ⟨_, hmt, hsub⟩ := litScanAux_mem _ _ _ hscan' pm hpm
      have hb := matchesAt_bound hlp hmt
      rw [lowerStr_length, lowerStr_length] at hb
      have hpos : 0 < r.pattern.length := List.length_pos.mpr hp
      have hlen : v.length = r.pattern.length := by
        rw [← hpv, hsub]
        simp only [substrAt, List.length_take, List.length_drop]
        omega
      intro hcon
      rw [hcon] at hlen
      simp at hlen
      omega
    show replaceAllLit tok v
      (applyDistinct false r.replacement (firstDedup (pms.map Prod.snd)) t) = t
    rw [hfd']
    have hone : applyDistinct false r.replacement [v] t =
        replaceAllSubst v (token r.replacement 1) t := rfl
    rw [hone, htokeq, replaceAllSubst_no_dollar hnd hv]
    exact replaceAllLit_roundTrip hv htok t.length t (le_refl _) hdisj

theorem C3_round_trip_witness :
    replaceAllLit (strOf "[X]_1") (strOf "ll") (strOf "he[X]_1o") = strOf "hello" :=
  C3_round_trip noEngine (strOf "hello") llRule rfl (by decide)
    ⟨strOf "he[X]_1o", [strOf "ll"], [(strOf "ll", strOf "[X]_1")]⟩ rfl
    (strOf "ll") (strOf "[X]_1") rfl rfl (by decide) (by decide)

end Maskeraid
